import Mathlib

/-!
Shallow embedding of the synthetic-graph evaluator
(`src/synthetic_graph/graph_ctypes/source/node.c`) and its operation
library (`src/synthetic_graph/graph_python_ctypes/source/library.c`).

Modelling conventions:
* C `double` is modelled as `ℚ`; the transcendental library functions
  `sin`/`cosh` are abstract parameters `ℚ → ℚ` (the C loops are the
  verified content, not IEEE arithmetic).
* Pointers are natural numbers; `0` is the C null pointer.
* The heap maps allocated addresses to buffers (`List ℚ`) and keeps a
  log of every pointer passed to `free`, so release behaviour is
  observable.  `free` on the null pointer is a no-op on memory, exactly
  as in C, but is still logged as a release call.
* Reading unallocated or out-of-range memory (undefined behaviour in C)
  yields `0`; writing out of range is a no-op.  Every claim below is
  stated with hypotheses that keep the code inside defined behaviour.
-/

namespace SyntheticGraph

/-- A C pointer: an address, with `0` playing the role of `NULL`. -/
abbrev Ptr := Nat

/-- The null pointer. -/
def nullPtr : Ptr := 0

/-- The mutable store: allocated buffers plus a log of release calls. -/
structure Heap where
  mem : List (Ptr × List ℚ)
  freedLog : List Ptr
deriving DecidableEq, Repr

/-- Association-list lookup over the allocated blocks. -/
def memLookup (ms : List (Ptr × List ℚ)) (p : Ptr) : Option (List ℚ) :=
  (ms.find? (fun e => e.1 = p)).map (fun e => e.2)

/-- Update index `j` of the block at address `p` (no-op elsewhere). -/
def memWrite (ms : List (Ptr × List ℚ)) (p : Ptr) (j : Nat) (v : ℚ) :
    List (Ptr × List ℚ) :=
  ms.map (fun e => if e.1 = p then (e.1, e.2.set j v) else e)

/-- Remove the block at address `p`. -/
def memErase (ms : List (Ptr × List ℚ)) (p : Ptr) : List (Ptr × List ℚ) :=
  ms.filter (fun e => ¬ e.1 = p)

/-- Buffer stored at address `p`, if allocated. -/
def Heap.lookup (h : Heap) (p : Ptr) : Option (List ℚ) :=
  memLookup h.mem p

/-- Read `p[j]` as the C code does; out-of-contract reads give `0`. -/
def Heap.read (h : Heap) (p : Ptr) (j : Nat) : ℚ :=
  ((h.lookup p).getD []).getD j 0

/-- Write `p[j] = v`; no-op when `p` is unallocated or `j` out of range. -/
def Heap.write (h : Heap) (p : Ptr) (j : Nat) (v : ℚ) : Heap :=
  { h with mem := memWrite h.mem p j v }

/-- C `free(p)`: deallocate `p` (no-op on `NULL`) and log the call. -/
def Heap.free (h : Heap) (p : Ptr) : Heap :=
  { h with
    mem := if p = nullPtr then h.mem else memErase h.mem p
    freedLog := h.freedLog ++ [p] }

/-- The C operation signature
`double *(*fcn)(double **, int *, int, double *)`, as a heap
transformer returning the result pointer. -/
abbrev Fcn := List Ptr → List Int → Int → Ptr → Heap → Ptr × Heap

/-- The `Node` struct of `node.h`: input nodes, precomputed input
sizes, the operation pointer, and the (possibly null) data buffer. -/
inductive Node where
  | mk (inputs : List Node) (input_sizes : List Int) (fcn : Fcn) (data : Ptr)

/-- Field accessor for `node->inputs`. -/
def Node.inputs : Node → List Node
  | .mk inputs _ _ _ => inputs

/-- Field accessor for `node->input_sizes`. -/
def Node.input_sizes : Node → List Int
  | .mk _ sizes _ _ => sizes

/-- Field accessor for `node->fcn`. -/
def Node.fcn : Node → Fcn
  | .mk _ _ f _ => f

/-- Field accessor for `node->data`. -/
def Node.data : Node → Ptr
  | .mk _ _ _ d => d

/-- Field accessor for `node->input_count` (always `inputs.length`:
the graph construction layer precomputes it from the input array). -/
def Node.input_count (n : Node) : Int :=
  (n.inputs.length : Int)

/-- Lines 12–16 of `node.c`: for each input `i` in order,
`if (!node->inputs[i]->data) free(input_results[i]);`. -/
def releaseInputs : List Node → List Ptr → Heap → Heap
  | n :: ns, r :: rs, h =>
      releaseInputs ns rs (if n.data = nullPtr then h.free r else h)
  | _, _, h => h

mutual

/-- `run_node` of `node.c`: evaluate all inputs in order, call the
node's operation on the collected result pointers, then release the
result buffer of every input whose `data` field is null. -/
def run_node : Node → Heap → Ptr × Heap
  | .mk inputs sizes f data, h =>
      let rs := runInputs inputs h
      let fr := f rs.1 sizes (inputs.length : Int) data rs.2
      (fr.1, releaseInputs inputs rs.1 fr.2)
termination_by structural n => n

/-- The loop on lines 7–9 of `node.c`: evaluate each input in order,
threading the heap, collecting the result pointers. -/
def runInputs : List Node → Heap → List Ptr × Heap
  | [], h => ([], h)
  | n :: ns, h =>
      let r := run_node n h
      let rs := runInputs ns r.2
      (r.1 :: rs.1, rs.2)
termination_by structural ns => ns

end

/-- `input_fcn` of `library.c`: `return data;`. -/
def input_fcn : Fcn := fun _lists _sizes _num_lists data h => (data, h)

/-- `sum_fcn` of `library.c`: for `i < num_lists`, `j < sizes[0]`,
`data[j] += lists[i][j]`; returns `data`. -/
def sum_fcn : Fcn := fun lists sizes num_lists data h =>
  let size := (sizes.headD 0).toNat
  (data,
    (List.range num_lists.toNat).foldl
      (fun h i =>
        (List.range size).foldl
          (fun h j => h.write data j (h.read data j + h.read (lists.getD i nullPtr) j)) h)
      h)

/-- `product_fcn` of `library.c`: same loops as `sum_fcn` with
`data[j] *= lists[i][j]`; returns `data`. -/
def product_fcn : Fcn := fun lists sizes num_lists data h =>
  let size := (sizes.headD 0).toNat
  (data,
    (List.range num_lists.toNat).foldl
      (fun h i =>
        (List.range size).foldl
          (fun h j => h.write data j (h.read data j * h.read (lists.getD i nullPtr) j)) h)
      h)

/-- `integration_fcn` of `library.c`: `values = lists[0]`,
`bins = lists[1]`; for `i < sizes[0] - 1`,
`data[0] += 0.5 * (values[i] + values[i+1]) * (bins[i+1] - bins[i])`;
returns `data`. -/
def integration_fcn : Fcn := fun lists sizes _num_lists data h =>
  let values := lists.getD 0 nullPtr
  let bins := lists.getD 1 nullPtr
  (data,
    (List.range (sizes.headD 0 - 1).toNat).foldl
      (fun h i =>
        h.write data 0
          (h.read data 0 +
            (1 / 2 : ℚ) * (h.read values i + h.read values (i + 1)) *
              (h.read bins (i + 1) - h.read bins i)))
      h)

/-- `sin_fcn` of `library.c` with the C `sin` abstracted as `sinF`:
for `i < sizes[0]`, `data[i] = sin(lists[0][i])`; returns `data`. -/
def sin_fcn (sinF : ℚ → ℚ) : Fcn := fun lists sizes _num_lists data h =>
  let input := lists.getD 0 nullPtr
  (data,
    (List.range (sizes.headD 0).toNat).foldl
      (fun h i => h.write data i (sinF (h.read input i))) h)

/-- `cosh_fcn` of `library.c` with the C `cosh` abstracted as `coshF`:
for `i < sizes[0]`, `data[i] = cosh(lists[0][i])`; returns `data`. -/
def cosh_fcn (coshF : ℚ → ℚ) : Fcn := fun lists sizes _num_lists data h =>
  let input := lists.getD 0 nullPtr
  (data,
    (List.range (sizes.headD 0).toNat).foldl
      (fun h i => h.write data i (coshF (h.read input i))) h)

instance : Inhabited Node := ⟨.mk [] [] input_fcn nullPtr⟩

/-- The pointers the release loop of `run_node` passes to `free`: the
result pointer of every input whose `data` field is null, in input
order. -/
def releasedPtrs (ns : List Node) (rs : List Ptr) : List Ptr :=
  (ns.zip rs).filterMap (fun e => if e.1.data = nullPtr then some e.2 else none)

/-- Number of elements of the buffer stored at `p` (0 if unallocated). -/
def lengthAt (h : Heap) (p : Ptr) : Nat :=
  ((h.lookup p).getD []).length

/-- The inner loop of the elementwise operations: for `j < size`,
`data[j] = g(data[j], p[j])`. -/
def innerLoop (g : ℚ → ℚ → ℚ) (p d : Ptr) (size : Nat) (h : Heap) : Heap :=
  (List.range size).foldl (fun h j => h.write d j (g (h.read d j) (h.read p j))) h

/-- The doubly nested loop shared by `sum_fcn` and `product_fcn` (and,
with `k = 1` and a combine function ignoring its first argument, by
`sin_fcn`/`cosh_fcn`): for `i < k`, `j < size`,
`data[j] = g(data[j], lists[i][j])`. -/
def opLoop (g : ℚ → ℚ → ℚ) (lists : List Ptr) (k size : Nat) (d : Ptr) (h : Heap) : Heap :=
  (List.range k).foldl
    (fun h i =>
      (List.range size).foldl
        (fun h j => h.write d j (g (h.read d j) (h.read (lists.getD i nullPtr) j))) h)
    h

/-- The loop of `integration_fcn`: for `i < m`,
`data[0] += 0.5 * (values[i] + values[i+1]) * (bins[i+1] - bins[i])`. -/
def intLoop (pv pb : Ptr) (m : Nat) (d : Ptr) (h : Heap) : Heap :=
  (List.range m).foldl
    (fun h i =>
      h.write d 0
        (h.read d 0 +
          (1 / 2 : ℚ) * (h.read pv i + h.read pv (i + 1)) *
            (h.read pb (i + 1) - h.read pb i)))
    h

/-- The fixed operation set of `library.c` (§4.2 of the design:
dispatch is over exactly these functions; `sin`/`cosh` for any
underlying mathematical function). -/
def IsBuiltin (f : Fcn) : Prop :=
  f = input_fcn ∨ f = sum_fcn ∨ f = product_fcn ∨ f = integration_fcn ∨
    (∃ s, f = sin_fcn s) ∨ (∃ c, f = cosh_fcn c)

mutual

/-- Every operation in the graph rooted at `n` is a built-in of
`library.c`. -/
def allBuiltin : Node → Prop
  | .mk inputs _ f _ => IsBuiltin f ∧ allBuiltinList inputs
termination_by structural n => n

/-- Every operation in each graph of the list is a built-in. -/
def allBuiltinList : List Node → Prop
  | [] => True
  | n :: ns => allBuiltin n ∧ allBuiltinList ns
termination_by structural ns => ns

end

mutual

/-- All `data` pointers occurring in the graph rooted at `n`. -/
def dataPtrs : Node → List Ptr
  | .mk inputs _ _ d => d :: dataPtrsList inputs
termination_by structural n => n

/-- All `data` pointers occurring in a list of graphs. -/
def dataPtrsList : List Node → List Ptr
  | [] => []
  | n :: ns => dataPtrs n ++ dataPtrsList ns
termination_by structural ns => ns

end

mutual

/-- Depth of the graph: the number of stack frames `run_node` needs
(a leaf costs one frame). -/
def depth : Node → Nat
  | .mk inputs _ _ _ => 1 + depthList inputs
termination_by structural n => n

/-- Maximum depth over a list of graphs. -/
def depthList : List Node → Nat
  | [] => 0
  | n :: ns => max (depth n) (depthList ns)
termination_by structural ns => ns

end

/-- What `run_node` guarantees on a graph built only from library
operations: the result pointer is the node's own `data`, memory
outside the graph's `data` buffers is untouched, no buffer is
allocated or deallocated, and every logged release call is on the
null pointer. -/
def BuiltinRunSpec (n : Node) : Prop :=
  ∀ h : Heap,
    (run_node n h).1 = n.data ∧
    (∀ q, q ∉ dataPtrs n → (run_node n h).2.lookup q = h.lookup q) ∧
    (∀ q, ((run_node n h).2.lookup q).isSome = (h.lookup q).isSome) ∧
    (∃ m, (run_node n h).2.freedLog = h.freedLog ++ List.replicate m nullPtr)

/-- Input-evaluation loop parametrised by the evaluator, used by the
fuel-bounded evaluator. -/
def runInputsAux (eval : Node → Heap → Option (Ptr × Heap)) :
    List Node → Heap → Option (List Ptr × Heap)
  | [], h => some ([], h)
  | n :: ns, h =>
      match eval n h with
      | none => none
      | some r =>
          match runInputsAux eval ns r.2 with
          | none => none
          | some rs => some (r.1 :: rs.1, rs.2)

/-- `run_node` instrumented with a bound on the recursion depth: each
recursive call (one C stack frame) consumes one unit of fuel, and the
evaluation returns `none` when the fuel is exhausted.  Used to state
that the recursion depth of `run_node` is bounded by the graph depth. -/
def run_node_fuel : Nat → Node → Heap → Option (Ptr × Heap)
  | 0, _, _ => none
  | fuel + 1, .mk inputs sizes f data, h =>
      match runInputsAux (fun n h => run_node_fuel fuel n h) inputs h with
      | none => none
      | some rs =>
          some ((f rs.1 sizes (inputs.length : Int) data rs.2).1,
            releaseInputs inputs rs.1 (f rs.1 sizes (inputs.length : Int) data rs.2).2)

/-- Error taxonomy of §7 of the design document. -/
inductive EvalError where
  | allocationError
deriving DecidableEq

mutual

/-- Modelled from the spec: §4.1 edge case 2 and §7 describe an
evaluator that fails with `AllocationError` whenever `node.data` is
null and the operation also returns null; no such check exists in
`node.c`, whose `run_node` returns the operation result
unconditionally.  This definition follows the spec words and is used
to compare that described behaviour against `run_node`. -/
def run_node_checked : Node → Heap → Except EvalError (Ptr × Heap)
  | .mk inputs sizes f data, h =>
      match runInputsChecked inputs h with
      | .error e => .error e
      | .ok rs =>
          let fr := f rs.1 sizes (inputs.length : Int) data rs.2
          if data = nullPtr ∧ fr.1 = nullPtr then .error .allocationError
          else .ok (fr.1, releaseInputs inputs rs.1 fr.2)
termination_by structural n => n

/-- Modelled from the spec: input-evaluation loop of
`run_node_checked`, propagating `AllocationError` from inputs. -/
def runInputsChecked : List Node → Heap → Except EvalError (List Ptr × Heap)
  | [], h => .ok ([], h)
  | n :: ns, h =>
      match run_node_checked n h with
      | .error e => .error e
      | .ok r =>
          match runInputsChecked ns r.2 with
          | .error e => .error e
          | .ok rs => .ok (r.1 :: rs.1, rs.2)
termination_by structural ns => ns

end

/-! ### List helpers -/

theorem getD_set_self (l : List ℚ) (j : Nat) (v : ℚ) (hj : j < l.length) :
    (l.set j v).getD j 0 = v := by
  have hj2 : j < (l.set j v).length := by simpa using hj
  rw [List.getD_eq_getElem _ _ hj2, List.getElem_set_self]

theorem getD_set_ne (l : List ℚ) (i j : Nat) (v : ℚ) (hij : i ≠ j) :
    (l.set i v).getD j 0 = l.getD j 0 := by
  rcases Nat.lt_or_ge j l.length with hl | hl
  · rw [List.getD_eq_getElem _ _ (by simpa using hl), List.getD_eq_getElem _ _ hl,
      List.getElem_set_ne hij]
  · rw [List.getD_eq_default _ _ (by simpa using hl), List.getD_eq_default _ _ hl]

theorem getD_replicate_zero (n j : Nat) : (List.replicate n (0 : ℚ)).getD j 0 = 0 := by
  rcases Nat.lt_or_ge j n with hl | hl
  · rw [List.getD_eq_getElem _ _ (by simpa using hl)]
    simp
  · exact List.getD_eq_default _ _ (by simpa using hl)

/-! ### Memory-level lemmas -/

theorem memLookup_cons (e : Ptr × List ℚ) (ms : List (Ptr × List ℚ)) (q : Ptr) :
    memLookup (e :: ms) q = if e.1 = q then some e.2 else memLookup ms q := by
  by_cases h : e.1 = q
  · simp [memLookup, List.find?, h]
  · simp [memLookup, List.find?, h]

theorem memWrite_cons (e : Ptr × List ℚ) (ms : List (Ptr × List ℚ)) (p : Ptr)
    (j : Nat) (v : ℚ) :
    memWrite (e :: ms) p j v =
      (if e.1 = p then (e.1, e.2.set j v) else e) :: memWrite ms p j v := rfl

theorem memErase_cons (e : Ptr × List ℚ) (ms : List (Ptr × List ℚ)) (p : Ptr) :
    memErase (e :: ms) p = if e.1 = p then memErase ms p else e :: memErase ms p := by
  by_cases h : e.1 = p
  · simp [memErase, List.filter, h]
  · simp [memErase, List.filter, h]

theorem memLookup_memWrite_ne (ms : List (Ptr × List ℚ)) (p q : Ptr) (j : Nat)
    (v : ℚ) (hqp : q ≠ p) : memLookup (memWrite ms p j v) q = memLookup ms q := by
  induction ms with
  | nil => rfl
  | cons e ms ih =>
      rw [memWrite_cons]
      by_cases hep : e.1 = p
      · have heq : ¬(e.1 = q) := by rw [hep]; exact fun hh => hqp hh.symm
        rw [if_pos hep, memLookup_cons, memLookup_cons, if_neg heq, if_neg (by exact heq), ih]
      · rw [if_neg hep, memLookup_cons, memLookup_cons]
        by_cases heq : e.1 = q
        · rw [if_pos heq, if_pos heq]
        · rw [if_neg heq, if_neg heq, ih]

theorem memLookup_memWrite_self (ms : List (Ptr × List ℚ)) (p : Ptr) (j : Nat)
    (v : ℚ) :
    memLookup (memWrite ms p j v) p = (memLookup ms p).map (fun l => l.set j v) := by
  induction ms with
  | nil => rfl
  | cons e ms ih =>
      rw [memWrite_cons]
      by_cases hep : e.1 = p
      · rw [if_pos hep, memLookup_cons, memLookup_cons]
        simp [hep]
      · rw [if_neg hep, memLookup_cons, memLookup_cons, if_neg hep, if_neg hep, ih]

theorem memLookup_memErase_ne (ms : List (Ptr × List ℚ)) (p q : Ptr)
    (hqp : q ≠ p) : memLookup (memErase ms p) q = memLookup ms q := by
  induction ms with
  | nil => rfl
  | cons e ms ih =>
      rw [memErase_cons]
      by_cases hep : e.1 = p
      · have heq : ¬(e.1 = q) := by rw [hep]; exact fun hh => hqp hh.symm
        rw [if_pos hep, memLookup_cons, if_neg heq, ih]
      · rw [if_neg hep, memLookup_cons, memLookup_cons]
        by_cases heq : e.1 = q
        · rw [if_pos heq, if_pos heq]
        · rw [if_neg heq, if_neg heq, ih]

theorem memLookup_memErase_self (ms : List (Ptr × List ℚ)) (p : Ptr) :
    memLookup (memErase ms p) p = none := by
  induction ms with
  | nil => rfl
  | cons e ms ih =>
      rw [memErase_cons]
      by_cases hep : e.1 = p
      · rw [if_pos hep]; exact ih
      · rw [if_neg hep, memLookup_cons, if_neg hep]; exact ih

/-! ### Heap-level lemmas -/

theorem Heap.lookup_write_ne (h : Heap) (p q : Ptr) (j : Nat) (v : ℚ)
    (hqp : q ≠ p) : (h.write p j v).lookup q = h.lookup q :=
  memLookup_memWrite_ne h.mem p q j v hqp

theorem Heap.lookup_write_self (h : Heap) (p : Ptr) (j : Nat) (v : ℚ) :
    (h.write p j v).lookup p = (h.lookup p).map (fun l => l.set j v) :=
  memLookup_memWrite_self h.mem p j v

theorem Heap.freedLog_write (h : Heap) (p : Ptr) (j : Nat) (v : ℚ) :
    (h.write p j v).freedLog = h.freedLog := rfl

theorem Heap.lookup_free_ne (h : Heap) (p q : Ptr) (hqp : q ≠ p) :
    (h.free p).lookup q = h.lookup q := by
  by_cases hp : p = nullPtr
  · simp [Heap.free, Heap.lookup, hp]
  · simp only [Heap.free, Heap.lookup, hp, if_neg hp]
    exact memLookup_memErase_ne h.mem p q hqp

theorem Heap.lookup_free_null (h : Heap) (q : Ptr) :
    (h.free nullPtr).lookup q = h.lookup q := by
  simp [Heap.free, Heap.lookup]

theorem Heap.freedLog_free (h : Heap) (p : Ptr) :
    (h.free p).freedLog = h.freedLog ++ [p] := rfl

theorem Heap.isSome_lookup_free (h : Heap) (p q : Ptr)
    (hq : ((h.free p).lookup q).isSome = true) : (h.lookup q).isSome = true := by
  by_cases hqp : q = p
  · by_cases hp : p = nullPtr
    · rw [hqp, hp, Heap.lookup_free_null] at hq
      rw [hqp, hp]
      exact hq
    · exfalso
      rw [hqp] at hq
      simp only [Heap.free, Heap.lookup, if_neg hp] at hq
      rw [memLookup_memErase_self] at hq
      simp at hq
  · rwa [Heap.lookup_free_ne h p q hqp] at hq

theorem Heap.isSome_lookup_write (h : Heap) (p q : Ptr) (j : Nat) (v : ℚ) :
    ((h.write p j v).lookup q).isSome = (h.lookup q).isSome := by
  by_cases hqp : q = p
  · rw [hqp, Heap.lookup_write_self]
    cases h.lookup p <;> rfl
  · rw [Heap.lookup_write_ne h p q j v hqp]

theorem Heap.read_eq_of_lookup_eq (h h₂ : Heap) (p : Ptr) (j : Nat)
    (hl : h.lookup p = h₂.lookup p) : h.read p j = h₂.read p j := by
  simp [Heap.read, hl]

theorem lengthAt_congr (h₁ h₂ : Heap) (d : Ptr)
    (hl : (h₁.lookup d).map List.length = (h₂.lookup d).map List.length) :
    lengthAt h₁ d = lengthAt h₂ d := by
  unfold lengthAt
  cases hx : h₁.lookup d <;> cases hy : h₂.lookup d <;>
    rw [hx, hy] at hl <;> simp_all

theorem Heap.read_write (h : Heap) (d : Ptr) (i j : Nat) (v : ℚ) :
    (h.write d i v).read d j =
      if i = j ∧ j < lengthAt h d then v else h.read d j := by
  unfold Heap.read lengthAt
  rw [Heap.lookup_write_self]
  cases hx : h.lookup d with
  | none => simp
  | some l =>
      simp only [Option.map_some', Option.getD_some]
      by_cases hij : i = j
      · subst hij
        by_cases hil : i < l.length
        · rw [getD_set_self l i v hil, if_pos ⟨rfl, hil⟩]
        · rw [List.set_eq_of_length_le (by omega), if_neg (by tauto)]
      · rw [getD_set_ne l i j v hij, if_neg (by tauto)]

/-! ### Inner elementwise loop -/

theorem innerLoop_succ (g : ℚ → ℚ → ℚ) (p d : Ptr) (size : Nat) (h0 : Heap) :
    innerLoop g p d (size + 1) h0 =
      (innerLoop g p d size h0).write d size
        (g ((innerLoop g p d size h0).read d size)
          ((innerLoop g p d size h0).read p size)) := by
  unfold innerLoop
  rw [List.range_succ, List.foldl_append]
  rfl

theorem innerLoop_lookup_ne (g : ℚ → ℚ → ℚ) (p d : Ptr) (size : Nat) (h0 : Heap)
    (q : Ptr) (hq : q ≠ d) : (innerLoop g p d size h0).lookup q = h0.lookup q := by
  induction size with
  | zero => rfl
  | succ size ih => rw [innerLoop_succ, Heap.lookup_write_ne _ _ _ _ _ hq, ih]

theorem innerLoop_freedLog (g : ℚ → ℚ → ℚ) (p d : Ptr) (size : Nat) (h0 : Heap) :
    (innerLoop g p d size h0).freedLog = h0.freedLog := by
  induction size with
  | zero => rfl
  | succ size ih => rw [innerLoop_succ, Heap.freedLog_write, ih]

theorem innerLoop_lookup_len (g : ℚ → ℚ → ℚ) (p d : Ptr) (size : Nat) (h0 : Heap) :
    ((innerLoop g p d size h0).lookup d).map List.length =
      (h0.lookup d).map List.length := by
  induction size with
  | zero => rfl
  | succ size ih =>
      rw [innerLoop_succ, Heap.lookup_write_self]
      cases hx : (innerLoop g p d size h0).lookup d with
      | none => rw [hx] at ih; simpa using ih
      | some l => rw [hx] at ih; simpa using ih

theorem innerLoop_read_d (g : ℚ → ℚ → ℚ) (p d : Ptr) (size : Nat) (h0 : Heap)
    (hpd : p ≠ d) (j : Nat) :
    (innerLoop g p d size h0).read d j =
      if j < size ∧ j < lengthAt h0 d then g (h0.read d j) (h0.read p j)
      else h0.read d j := by
  induction size with
  | zero => rw [if_neg (by omega)]; rfl
  | succ size ih =>
      have hlen : lengthAt (innerLoop g p d size h0) d = lengthAt h0 d :=
        lengthAt_congr _ _ _ (innerLoop_lookup_len g p d size h0)
      have hp : (innerLoop g p d size h0).read p size = h0.read p size :=
        Heap.read_eq_of_lookup_eq _ _ _ _ (innerLoop_lookup_ne g p d size h0 p hpd)
      rw [innerLoop_succ, Heap.read_write, hlen]
      by_cases hj : size = j
      · subst hj
        by_cases hl : size < lengthAt h0 d
        · rw [if_pos ⟨rfl, hl⟩, if_pos ⟨by omega, hl⟩, hp, ih, if_neg (by omega)]
        · rw [if_neg (by tauto), ih, if_neg (by omega), if_neg (by tauto)]
      · rw [if_neg (by tauto), ih]
        by_cases hcond : j < size ∧ j < lengthAt h0 d
        · rw [if_pos hcond, if_pos ⟨by omega, hcond.2⟩]
        · rw [if_neg hcond, if_neg (by omega)]

/-! ### Outer loop over the input lists -/

theorem opLoop_succ (g : ℚ → ℚ → ℚ) (lists : List Ptr) (k size : Nat) (d : Ptr)
    (h0 : Heap) :
    opLoop g lists (k + 1) size d h0 =
      innerLoop g (lists.getD k nullPtr) d size (opLoop g lists k size d h0) := by
  unfold opLoop
  rw [List.range_succ, List.foldl_append]
  rfl

theorem opLoop_lookup_ne (g : ℚ → ℚ → ℚ) (lists : List Ptr) (k size : Nat)
    (d : Ptr) (h0 : Heap) (q : Ptr) (hq : q ≠ d) :
    (opLoop g lists k size d h0).lookup q = h0.lookup q := by
  induction k with
  | zero => rfl
  | succ k ih => rw [opLoop_succ, innerLoop_lookup_ne _ _ _ _ _ _ hq, ih]

theorem opLoop_freedLog (g : ℚ → ℚ → ℚ) (lists : List Ptr) (k size : Nat)
    (d : Ptr) (h0 : Heap) : (opLoop g lists k size d h0).freedLog = h0.freedLog := by
  induction k with
  | zero => rfl
  | succ k ih => rw [opLoop_succ, innerLoop_freedLog, ih]

theorem opLoop_lookup_len (g : ℚ → ℚ → ℚ) (lists : List Ptr) (k size : Nat)
    (d : Ptr) (h0 : Heap) :
    ((opLoop g lists k size d h0).lookup d).map List.length =
      (h0.lookup d).map List.length := by
  induction k with
  | zero => rfl
  | succ k ih => rw [opLoop_succ, innerLoop_lookup_len, ih]

theorem opLoop_read_d (g : ℚ → ℚ → ℚ) (lists : List Ptr) (k size : Nat) (d : Ptr)
    (h0 : Heap) (hld : ∀ i, i < k → lists.getD i nullPtr ≠ d) (j : Nat) :
    (opLoop g lists k size d h0).read d j =
      if j < size ∧ j < lengthAt h0 d then
        (List.range k).foldl (fun acc i => g acc (h0.read (lists.getD i nullPtr) j))
          (h0.read d j)
      else h0.read d j := by
  induction k with
  | zero =>
      by_cases hcond : j < size ∧ j < lengthAt h0 d
      · rw [if_pos hcond]; rfl
      · rw [if_neg hcond]; rfl
  | succ k ih =>
      have hld0 : ∀ i, i < k → lists.getD i nullPtr ≠ d := fun i hi => hld i (by omega)
      have hlen : lengthAt (opLoop g lists k size d h0) d = lengthAt h0 d :=
        lengthAt_congr _ _ _ (opLoop_lookup_len g lists k size d h0)
      have hpk : (opLoop g lists k size d h0).read (lists.getD k nullPtr) j =
          h0.read (lists.getD k nullPtr) j :=
        Heap.read_eq_of_lookup_eq _ _ _ _
          (opLoop_lookup_ne g lists k size d h0 _ (hld k (by omega)))
      rw [opLoop_succ, innerLoop_read_d _ _ _ _ _ (hld k (by omega)) j, hlen,
        ih hld0, hpk]
      by_cases hcond : j < size ∧ j < lengthAt h0 d
      · rw [if_pos hcond, if_pos hcond, if_pos hcond, List.range_succ,
          List.foldl_append]
        rfl
      · rw [if_neg hcond, if_neg hcond, if_neg hcond]

/-! ### Integration loop -/

theorem intLoop_succ (pv pb : Ptr) (m : Nat) (d : Ptr) (h0 : Heap) :
    intLoop pv pb (m + 1) d h0 =
      (intLoop pv pb m d h0).write d 0
        ((intLoop pv pb m d h0).read d 0 +
          (1 / 2 : ℚ) *
              ((intLoop pv pb m d h0).read pv m + (intLoop pv pb m d h0).read pv (m + 1)) *
            ((intLoop pv pb m d h0).read pb (m + 1) - (intLoop pv pb m d h0).read pb m)) := by
  unfold intLoop
  rw [List.range_succ, List.foldl_append]
  rfl

theorem intLoop_lookup_ne (pv pb : Ptr) (m : Nat) (d : Ptr) (h0 : Heap) (q : Ptr)
    (hq : q ≠ d) : (intLoop pv pb m d h0).lookup q = h0.lookup q := by
  induction m with
  | zero => rfl
  | succ m ih => rw [intLoop_succ, Heap.lookup_write_ne _ _ _ _ _ hq, ih]

theorem intLoop_freedLog (pv pb : Ptr) (m : Nat) (d : Ptr) (h0 : Heap) :
    (intLoop pv pb m d h0).freedLog = h0.freedLog := by
  induction m with
  | zero => rfl
  | succ m ih => rw [intLoop_succ, Heap.freedLog_write, ih]

theorem intLoop_lookup_len (pv pb : Ptr) (m : Nat) (d : Ptr) (h0 : Heap) :
    ((intLoop pv pb m d h0).lookup d).map List.length =
      (h0.lookup d).map List.length := by
  induction m with
  | zero => rfl
  | succ m ih =>
      rw [intLoop_succ, Heap.lookup_write_self]
      cases hx : (intLoop pv pb m d h0).lookup d with
      | none => rw [hx] at ih; simpa using ih
      | some l => rw [hx] at ih; simpa using ih

theorem intLoop_read_d (pv pb : Ptr) (m : Nat) (d : Ptr) (h0 : Heap)
    (hvd : pv ≠ d) (hbd : pb ≠ d) (j : Nat) :
    (intLoop pv pb m d h0).read d j =
      if j = 0 ∧ 0 < lengthAt h0 d then
        h0.read d 0 +
          ∑ i ∈ Finset.range m,
            (1 / 2 : ℚ) * (h0.read pv i + h0.read pv (i + 1)) *
              (h0.read pb (i + 1) - h0.read pb i)
      else h0.read d j := by
  induction m with
  | zero =>
      by_cases hcond : j = 0 ∧ 0 < lengthAt h0 d
      · rw [if_pos hcond, hcond.1]; simp [intLoop]
      · rw [if_neg hcond]; rfl
  | succ m ih =>
      have hlen : lengthAt (intLoop pv pb m d h0) d = lengthAt h0 d :=
        lengthAt_congr _ _ _ (intLoop_lookup_len pv pb m d h0)
      have hv : ∀ i, (intLoop pv pb m d h0).read pv i = h0.read pv i := fun i =>
        Heap.read_eq_of_lookup_eq _ _ _ _ (intLoop_lookup_ne pv pb m d h0 pv hvd)
      have hb : ∀ i, (intLoop pv pb m d h0).read pb i = h0.read pb i := fun i =>
        Heap.read_eq_of_lookup_eq _ _ _ _ (intLoop_lookup_ne pv pb m d h0 pb hbd)
      rw [intLoop_succ, Heap.read_write, hlen, hv, hv, hb, hb]
      by_cases hj : j = 0
      · subst hj
        by_cases hl : 0 < lengthAt h0 d
        · rw [if_pos ⟨rfl, hl⟩, if_pos ⟨rfl, hl⟩, ih, if_pos ⟨rfl, hl⟩,
            Finset.sum_range_succ]
          ring
        · rw [if_neg (by tauto), ih, if_neg (by tauto), if_neg (by tauto)]
      · rw [if_neg (by tauto), ih, if_neg (by tauto), if_neg (by tauto)]

/-! ### Folds to big operators -/

theorem foldl_add_sum (f : Nat → ℚ) (a : ℚ) (k : Nat) :
    (List.range k).foldl (fun acc i => acc + f i) a =
      a + ∑ i ∈ Finset.range k, f i := by
  induction k generalizing a with
  | zero => simp
  | succ k ih =>
      rw [List.range_succ, List.foldl_append, ih, Finset.sum_range_succ]
      show _ + _ + _ = _
      ring

theorem foldl_mul_prod (f : Nat → ℚ) (a : ℚ) (k : Nat) :
    (List.range k).foldl (fun acc i => acc * f i) a =
      a * ∏ i ∈ Finset.range k, f i := by
  induction k generalizing a with
  | zero => simp
  | succ k ih =>
      rw [List.range_succ, List.foldl_append, ih, Finset.prod_range_succ]
      show _ * _ * _ = _
      ring

/-! ### The library operations as instances of the generic loops -/

theorem sum_fcn_eq (lists : List Ptr) (sizes : List Int) (num_lists : Int)
    (data : Ptr) (h : Heap) :
    sum_fcn lists sizes num_lists data h =
      (data, opLoop (fun a b => a + b) lists num_lists.toNat
        (sizes.headD 0).toNat data h) := rfl

theorem product_fcn_eq (lists : List Ptr) (sizes : List Int) (num_lists : Int)
    (data : Ptr) (h : Heap) :
    product_fcn lists sizes num_lists data h =
      (data, opLoop (fun a b => a * b) lists num_lists.toNat
        (sizes.headD 0).toNat data h) := rfl

theorem sin_fcn_eq (sinF : ℚ → ℚ) (lists : List Ptr) (sizes : List Int)
    (num_lists : Int) (data : Ptr) (h : Heap) :
    sin_fcn sinF lists sizes num_lists data h =
      (data, opLoop (fun _ b => sinF b) lists 1 (sizes.headD 0).toNat data h) := rfl

theorem cosh_fcn_eq (coshF : ℚ → ℚ) (lists : List Ptr) (sizes : List Int)
    (num_lists : Int) (data : Ptr) (h : Heap) :
    cosh_fcn coshF lists sizes num_lists data h =
      (data, opLoop (fun _ b => coshF b) lists 1 (sizes.headD 0).toNat data h) := rfl

theorem integration_fcn_eq (lists : List Ptr) (sizes : List Int) (num_lists : Int)
    (data : Ptr) (h : Heap) :
    integration_fcn lists sizes num_lists data h =
      (data, intLoop (lists.getD 0 nullPtr) (lists.getD 1 nullPtr)
        (sizes.headD 0 - 1).toNat data h) := rfl

/-! ### Evaluator equations -/

theorem run_node_mk (inputs : List Node) (sizes : List Int) (f : Fcn) (d : Ptr)
    (h : Heap) :
    run_node (.mk inputs sizes f d) h =
      ((f (runInputs inputs h).1 sizes (inputs.length : Int) d (runInputs inputs h).2).1,
        releaseInputs inputs (runInputs inputs h).1
          (f (runInputs inputs h).1 sizes (inputs.length : Int) d
            (runInputs inputs h).2).2) := rfl

theorem runInputs_nil (h : Heap) : runInputs [] h = ([], h) := rfl

theorem runInputs_cons (n : Node) (ns : List Node) (h : Heap) :
    runInputs (n :: ns) h =
      ((run_node n h).1 :: (runInputs ns (run_node n h).2).1,
        (runInputs ns (run_node n h).2).2) := rfl

theorem runInputs_length (ns : List Node) (h : Heap) :
    (runInputs ns h).1.length = ns.length := by
  induction ns generalizing h with
  | nil => rfl
  | cons n ns ih => rw [runInputs_cons]; simp [ih]

/-! ### Release-loop lemmas -/

theorem releasedPtrs_nil (rs : List Ptr) : releasedPtrs [] rs = [] := rfl

theorem releasedPtrs_nil2 (ns : List Node) : releasedPtrs ns [] = [] := by
  cases ns <;> rfl

theorem releasedPtrs_cons (n : Node) (ns : List Node) (r : Ptr) (rs : List Ptr) :
    releasedPtrs (n :: ns) (r :: rs) =
      if n.data = nullPtr then r :: releasedPtrs ns rs else releasedPtrs ns rs := by
  by_cases hn : n.data = nullPtr
  · simp [releasedPtrs, List.filterMap_cons, hn]
  · simp [releasedPtrs, List.filterMap_cons, hn]

theorem releaseInputs_cons (n : Node) (ns : List Node) (r : Ptr) (rs : List Ptr)
    (h : Heap) :
    releaseInputs (n :: ns) (r :: rs) h =
      releaseInputs ns rs (if n.data = nullPtr then h.free r else h) := rfl

theorem releaseInputs_freedLog (ns : List Node) :
    ∀ (rs : List Ptr) (h : Heap),
      (releaseInputs ns rs h).freedLog = h.freedLog ++ releasedPtrs ns rs := by
  induction ns with
  | nil => intro rs h; cases rs <;> simp [releaseInputs, releasedPtrs_nil]
  | cons n ns ih =>
      intro rs h
      cases rs with
      | nil => simp [releaseInputs, releasedPtrs_nil2]
      | cons r rs =>
          rw [releaseInputs_cons, ih, releasedPtrs_cons]
          by_cases hn : n.data = nullPtr
          · rw [if_pos hn, if_pos hn, Heap.freedLog_free]
            simp
          · rw [if_neg hn, if_neg hn]

theorem releaseInputs_lookup (q : Ptr) (ns : List Node) :
    ∀ (rs : List Ptr) (h : Heap), q ∉ releasedPtrs ns rs →
      (releaseInputs ns rs h).lookup q = h.lookup q := by
  induction ns with
  | nil => intro rs h _; cases rs <;> rfl
  | cons n ns ih =>
      intro rs h hq
      cases rs with
      | nil => rfl
      | cons r rs =>
          rw [releaseInputs_cons]
          rw [releasedPtrs_cons] at hq
          by_cases hn : n.data = nullPtr
          · rw [if_pos hn] at hq ⊢
            have hqr : q ≠ r := fun hh => hq (hh ▸ List.mem_cons_self r _)
            have hq2 : q ∉ releasedPtrs ns rs := fun hh => hq (List.mem_cons_of_mem _ hh)
            rw [ih rs _ hq2, Heap.lookup_free_ne h r q hqr]
          · rw [if_neg hn] at hq ⊢
            exact ih rs h hq

theorem releaseInputs_isSome (q : Ptr) (ns : List Node) :
    ∀ (rs : List Ptr) (h : Heap),
      ((releaseInputs ns rs h).lookup q).isSome = true →
        (h.lookup q).isSome = true := by
  induction ns with
  | nil => intro rs h hq; cases rs <;> exact hq
  | cons n ns ih =>
      intro rs h hq
      cases rs with
      | nil => exact hq
      | cons r rs =>
          rw [releaseInputs_cons] at hq
          by_cases hn : n.data = nullPtr
          · rw [if_pos hn] at hq
            exact Heap.isSome_lookup_free h r q (ih rs _ hq)
          · rw [if_neg hn] at hq
            exact ih rs h hq

theorem releaseInputs_lookup_of_null (ns : List Node) :
    ∀ (rs : List Ptr) (h : Heap) (q : Ptr),
      (∀ x ∈ releasedPtrs ns rs, x = nullPtr) →
        (releaseInputs ns rs h).lookup q = h.lookup q := by
  induction ns with
  | nil => intro rs h q _; cases rs <;> rfl
  | cons n ns ih =>
      intro rs h q hx
      cases rs with
      | nil => rfl
      | cons r rs =>
          rw [releaseInputs_cons]
          rw [releasedPtrs_cons] at hx
          by_cases hn : n.data = nullPtr
          · rw [if_pos hn] at hx ⊢
            have hr : r = nullPtr := hx r (List.mem_cons_self r _)
            have hx2 : ∀ x ∈ releasedPtrs ns rs, x = nullPtr := fun x hh =>
              hx x (List.mem_cons_of_mem _ hh)
            rw [ih rs _ q hx2, hr, Heap.lookup_free_null]
          · rw [if_neg hn] at hx ⊢
            exact ih rs h q hx

theorem releasedPtrs_subset (ns : List Node) (rs : List Ptr) :
    ∀ x ∈ releasedPtrs ns rs, x ∈ rs := by
  intro x hx
  unfold releasedPtrs at hx
  rcases List.mem_filterMap.mp hx with ⟨e, hmem, hcond⟩
  have : e.2 = x := by
    by_cases hn : e.1.data = nullPtr
    · rw [if_pos hn] at hcond; exact Option.some_injective _ hcond
    · rw [if_neg hn] at hcond; cases hcond
  exact this ▸ (List.of_mem_zip hmem).2

/-! ### Induction over graphs -/

theorem node_ind (P : Node → Prop)
    (H : ∀ inputs sizes f d, (∀ n, n ∈ inputs → P n) → P (.mk inputs sizes f d)) :
    ∀ n, P n
  | .mk inputs sizes f d =>
      H inputs sizes f d (fun n hn => node_ind P H n)
termination_by n => sizeOf n
decreasing_by
  have := List.sizeOf_lt_of_mem hn
  simp only [Node.mk.sizeOf_spec]
  omega

/-! ### Structural equations for the graph predicates -/

theorem allBuiltin_mk (inputs : List Node) (sizes : List Int) (f : Fcn) (d : Ptr) :
    allBuiltin (.mk inputs sizes f d) = (IsBuiltin f ∧ allBuiltinList inputs) := rfl

theorem allBuiltinList_nil : allBuiltinList [] = True := rfl

theorem allBuiltinList_cons (n : Node) (ns : List Node) :
    allBuiltinList (n :: ns) = (allBuiltin n ∧ allBuiltinList ns) := rfl

theorem dataPtrs_mk (inputs : List Node) (sizes : List Int) (f : Fcn) (d : Ptr) :
    dataPtrs (.mk inputs sizes f d) = d :: dataPtrsList inputs := rfl

theorem dataPtrsList_nil : dataPtrsList [] = [] := rfl

theorem dataPtrsList_cons (n : Node) (ns : List Node) :
    dataPtrsList (n :: ns) = dataPtrs n ++ dataPtrsList ns := rfl

theorem depth_mk (inputs : List Node) (sizes : List Int) (f : Fcn) (d : Ptr) :
    depth (.mk inputs sizes f d) = 1 + depthList inputs := rfl

theorem depthList_nil : depthList [] = 0 := rfl

theorem depthList_cons (n : Node) (ns : List Node) :
    depthList (n :: ns) = max (depth n) (depthList ns) := rfl

theorem depth_le_depthList (n : Node) (ns : List Node) (hn : n ∈ ns) :
    depth n ≤ depthList ns := by
  induction ns with
  | nil => cases hn
  | cons m ms ih =>
      rw [depthList_cons]
      rcases List.mem_cons.mp hn with h | h
      · subst h; exact Nat.le_max_left _ _
      · exact Nat.le_trans (ih h) (Nat.le_max_right _ _)

/-! ### Effects of the built-in operations -/

theorem isSome_congr_of_map_len (o₁ o₂ : Option (List ℚ))
    (hm : o₁.map List.length = o₂.map List.length) : o₁.isSome = o₂.isSome := by
  cases o₁ <;> cases o₂ <;> simp_all

theorem builtin_apply (f : Fcn) (hf : IsBuiltin f) (lists : List Ptr)
    (sizes : List Int) (k : Int) (d : Ptr) (h : Heap) :
    (f lists sizes k d h).1 = d ∧
    (∀ q, q ≠ d → (f lists sizes k d h).2.lookup q = h.lookup q) ∧
    ((f lists sizes k d h).2.lookup d).map List.length =
      (h.lookup d).map List.length ∧
    (f lists sizes k d h).2.freedLog = h.freedLog := by
  rcases hf with hf | hf | hf | hf | ⟨s, hf⟩ | ⟨c, hf⟩ <;> subst hf
  · exact ⟨rfl, fun q _ => rfl, rfl, rfl⟩
  · rw [sum_fcn_eq]
    exact ⟨rfl, fun q hq => opLoop_lookup_ne _ _ _ _ _ _ q hq,
      opLoop_lookup_len _ _ _ _ _ _, opLoop_freedLog _ _ _ _ _ _⟩
  · rw [product_fcn_eq]
    exact ⟨rfl, fun q hq => opLoop_lookup_ne _ _ _ _ _ _ q hq,
      opLoop_lookup_len _ _ _ _ _ _, opLoop_freedLog _ _ _ _ _ _⟩
  · rw [integration_fcn_eq]
    exact ⟨rfl, fun q hq => intLoop_lookup_ne _ _ _ _ _ q hq,
      intLoop_lookup_len _ _ _ _ _, intLoop_freedLog _ _ _ _ _⟩
  · rw [sin_fcn_eq]
    exact ⟨rfl, fun q hq => opLoop_lookup_ne _ _ _ _ _ _ q hq,
      opLoop_lookup_len _ _ _ _ _ _, opLoop_freedLog _ _ _ _ _ _⟩
  · rw [cosh_fcn_eq]
    exact ⟨rfl, fun q hq => opLoop_lookup_ne _ _ _ _ _ _ q hq,
      opLoop_lookup_len _ _ _ _ _ _, opLoop_freedLog _ _ _ _ _ _⟩

theorem releasedPtrs_map_data (ns : List Node) :
    ∀ x ∈ releasedPtrs ns (ns.map Node.data), x = nullPtr := by
  induction ns with
  | nil => intro x hx; cases hx
  | cons n ns ih =>
      intro x hx
      rw [List.map_cons, releasedPtrs_cons] at hx
      by_cases hn : n.data = nullPtr
      · rw [if_pos hn] at hx
        rcases List.mem_cons.mp hx with h | h
        · rw [h, hn]
        · exact ih x h
      · rw [if_neg hn] at hx
        exact ih x hx

theorem runInputs_builtin (ns : List Node)
    (IH : ∀ n ∈ ns, allBuiltin n → BuiltinRunSpec n) (hb : allBuiltinList ns)
    (h : Heap) :
    (runInputs ns h).1 = ns.map Node.data ∧
    (∀ q, q ∉ dataPtrsList ns → (runInputs ns h).2.lookup q = h.lookup q) ∧
    (∀ q, ((runInputs ns h).2.lookup q).isSome = (h.lookup q).isSome) ∧
    (∃ m, (runInputs ns h).2.freedLog = h.freedLog ++ List.replicate m nullPtr) := by
  induction ns generalizing h with
  | nil => exact ⟨rfl, fun q _ => rfl, fun q => rfl, ⟨0, by rw [runInputs_nil]; simp⟩⟩
  | cons n ns ih =>
      rw [allBuiltinList_cons] at hb
      have hn := IH n (List.mem_cons_self n ns) hb.1 h
      have hrest := ih (fun m hm => IH m (List.mem_cons_of_mem n hm)) hb.2
        (run_node n h).2
      rw [runInputs_cons]
      refine ⟨?_, ?_, ?_, ?_⟩
      · simp only [List.map_cons]
        rw [hn.1, hrest.1]
      · intro q hq
        rw [dataPtrsList_cons, List.mem_append] at hq
        push_neg at hq
        rw [hrest.2.1 q hq.2, hn.2.1 q hq.1]
      · intro q
        rw [hrest.2.2.1 q, hn.2.2.1 q]
      · rcases hn.2.2.2 with ⟨m₁, hm₁⟩
        rcases hrest.2.2.2 with ⟨m₂, hm₂⟩
        exact ⟨m₁ + m₂, by rw [hm₂, hm₁, List.append_assoc, ← List.replicate_add]⟩

theorem run_node_builtin : ∀ n : Node, allBuiltin n → BuiltinRunSpec n := by
  refine node_ind (fun n => allBuiltin n → BuiltinRunSpec n) ?_
  intro inputs sizes f d IH hb h
  rw [allBuiltin_mk] at hb
  have hin := runInputs_builtin inputs IH hb.2 h
  have hap := builtin_apply f hb.1 (runInputs inputs h).1 sizes
    (inputs.length : Int) d (runInputs inputs h).2
  have hnull : ∀ x ∈ releasedPtrs inputs (runInputs inputs h).1, x = nullPtr := by
    rw [hin.1]; exact releasedPtrs_map_data inputs
  rw [run_node_mk]
  refine ⟨hap.1, ?_, ?_, ?_⟩
  · intro q hq
    rw [dataPtrs_mk, List.mem_cons] at hq
    push_neg at hq
    rw [releaseInputs_lookup_of_null inputs _ _ q hnull, hap.2.1 q hq.1,
      hin.2.1 q hq.2]
  · intro q
    rw [releaseInputs_lookup_of_null inputs _ _ q hnull]
    by_cases hqd : q = d
    · subst hqd
      rw [isSome_congr_of_map_len _ _ hap.2.2.1, hin.2.2.1 q]
    · rw [hap.2.1 q hqd, hin.2.2.1 q]
  · rcases hin.2.2.2 with ⟨m₁, hm₁⟩
    have hrel := releaseInputs_freedLog inputs (runInputs inputs h).1
      (f (runInputs inputs h).1 sizes (inputs.length : Int) d (runInputs inputs h).2).2
    have hreleq : releasedPtrs inputs (runInputs inputs h).1 =
        List.replicate (releasedPtrs inputs (runInputs inputs h).1).length nullPtr :=
      List.eq_replicate_of_mem hnull
    refine ⟨m₁ + (releasedPtrs inputs (runInputs inputs h).1).length, ?_⟩
    rw [hrel, hap.2.2.2, hm₁, hreleq, List.append_assoc, ← List.replicate_add]
    simp

/-! ### Fuel-bounded evaluation -/

theorem runInputsAux_spec (ev : Node → Heap → Option (Ptr × Heap))
    (ns : List Node) (hev : ∀ n ∈ ns, ∀ hh, ev n hh = some (run_node n hh)) :
    ∀ hh : Heap, runInputsAux ev ns hh = some (runInputs ns hh) := by
  induction ns with
  | nil => intro hh; rfl
  | cons n ns ih =>
      intro hh
      have h1 := hev n (List.mem_cons_self n ns) hh
      have h2 := ih (fun m hm => hev m (List.mem_cons_of_mem n hm)) (run_node n hh).2
      simp only [runInputsAux, h1, h2]
      rw [runInputs_cons]

theorem run_node_fuel_succ (fuel : Nat) (inputs : List Node) (sizes : List Int)
    (f : Fcn) (d : Ptr) (h : Heap) :
    run_node_fuel (fuel + 1) (.mk inputs sizes f d) h =
      match runInputsAux (fun n h => run_node_fuel fuel n h) inputs h with
      | none => none
      | some rs =>
          some ((f rs.1 sizes (inputs.length : Int) d rs.2).1,
            releaseInputs inputs rs.1 (f rs.1 sizes (inputs.length : Int) d rs.2).2) := rfl

theorem getD_mem_of_lt (l : List Ptr) (i : Nat) (hi : i < l.length) :
    l.getD i nullPtr ∈ l := by
  rw [List.getD_eq_getElem _ _ hi]
  exact List.getElem_mem hi

/-- Common argument for `sin`- and `cosh`-style nodes: a unary
elementwise operation applied through `run_node` to a single input. -/
theorem unary_map_run (F : ℚ → ℚ) (f : Fcn)
    (hfeq : ∀ lists sizes k data hh, f lists sizes k data hh =
      (data, opLoop (fun _ b => F b) lists 1 (sizes.headD 0).toNat data hh))
    (child : Node) (sizes : List Int) (p d : Ptr) (h h₁ : Heap) (x l0 : List ℚ)
    (n : Nat)
    (hrun : run_node child h = (p, h₁))
    (hsize : sizes.headD 0 = (n : Int))
    (hx : h₁.lookup p = some x)
    (hd : h₁.lookup d = some l0) (hl0 : l0.length = n)
    (hpd : p ≠ d) :
    (run_node (.mk [child] sizes f d) h).1 = d ∧
    ∀ i, i < n →
      (run_node (.mk [child] sizes f d) h).2.read d i = F (x.getD i 0) := by
  have hri : runInputs [child] h = ([p], h₁) := by
    rw [runInputs_cons, hrun]
    rfl
  have hmain : run_node (.mk [child] sizes f d) h =
      (d, releaseInputs [child] [p] (opLoop (fun _ b => F b) [p] 1 n d h₁)) := by
    rw [run_node_mk, hri]
    simp only [hfeq, hsize, Int.toNat_ofNat]
  have hlen : lengthAt h₁ d = n := by
    unfold lengthAt
    rw [hd]
    simpa using hl0
  have hdns : d ∉ releasedPtrs [child] [p] := by
    intro hh
    have := releasedPtrs_subset [child] [p] d hh
    simp at this
    exact hpd this.symm
  refine ⟨by rw [hmain], fun i hi => ?_⟩
  rw [hmain]
  have hrel : (releaseInputs [child] [p]
      (opLoop (fun _ b => F b) [p] 1 n d h₁)).lookup d =
      (opLoop (fun _ b => F b) [p] 1 n d h₁).lookup d :=
    releaseInputs_lookup d [child] [p] _ hdns
  rw [Heap.read_eq_of_lookup_eq _ _ _ _ hrel,
    opLoop_read_d _ _ _ _ _ _ (fun i hi1 => by
      interval_cases i
      · simpa using hpd) i,
    hlen, if_pos ⟨hi, hi⟩]
  have hr1 : List.range 1 = [0] := rfl
  rw [hr1]
  simp only [List.foldl_cons, List.foldl_nil, List.getD_cons_zero]
  show F (h₁.read p i) = _
  unfold Heap.read
  rw [hx]
  rfl

/-- Behaviour of `integration_fcn` on two distinct allocated input
buffers and an allocated accumulator: returns `data` and accumulates the
trapezoidal sum into `data[0]`. -/
theorem integration_spec (pv pb d : Ptr) (sizes : List Int) (k : Int)
    (h : Heap) (n : Nat) (v b l0 : List ℚ)
    (hsize : sizes.headD 0 = (n : Int))
    (hv : h.lookup pv = some v) (hb : h.lookup pb = some b)
    (hd : h.lookup d = some l0) (hl : 0 < l0.length)
    (hvd : pv ≠ d) (hbd : pb ≠ d) :
    (integration_fcn [pv, pb] sizes k d h).1 = d ∧
    (integration_fcn [pv, pb] sizes k d h).2.read d 0 =
      l0.getD 0 0 +
        ∑ i ∈ Finset.range (n - 1),
          (1 / 2 : ℚ) * (v.getD i 0 + v.getD (i + 1) 0) *
            (b.getD (i + 1) 0 - b.getD i 0) := by
  rw [integration_fcn_eq]
  have hlen : 0 < lengthAt h d := by
    unfold lengthAt
    rw [hd]
    simpa using hl
  have hm : (sizes.headD 0 - 1).toNat = n - 1 := by
    rw [hsize]
    omega
  refine ⟨rfl, ?_⟩
  show (intLoop ([pv, pb].getD 0 nullPtr) ([pv, pb].getD 1 nullPtr)
      (sizes.headD 0 - 1).toNat d h).read d 0 = _
  simp only [List.getD_cons_zero, List.getD_cons_succ]
  rw [hm, intLoop_read_d pv pb (n - 1) d h hvd hbd 0, if_pos ⟨rfl, hlen⟩]
  have hrd : h.read d 0 = l0.getD 0 0 := by
    unfold Heap.read; rw [hd]; rfl
  have hrv : ∀ i, h.read pv i = v.getD i 0 := fun i => by
    unfold Heap.read; rw [hv]; rfl
  have hrb : ∀ i, h.read pb i = b.getD i 0 := fun i => by
    unfold Heap.read; rw [hb]; rfl
  rw [hrd]
  refine congrArg (fun t => l0.getD 0 0 + t) (Finset.sum_congr rfl fun i _ => ?_)
  rw [hrv, hrv, hrb, hrb]

/-! ## Claim theorems -/

/-- C1: for every node with at least one input, after invoking the node's
operation (yielding post-operation heap `h₂`), the evaluator releases
input `i`'s result buffer if and only if input node `i`'s `data` field is
null — the free log is extended by exactly the result pointers of the
null-`data` inputs, in order — and the release step leaves every other
address untouched, so a buffer belonging to a node with non-null `data` is
never freed by the evaluator and is still valid and readable after
evaluation completes. -/
theorem c1_release_policy (inputs : List Node) (sizes : List Int) (f : Fcn)
    (d : Ptr) (h h₁ h₂ : Heap) (r : Ptr) (rs : List Ptr)
    (hpos : 0 < inputs.length)
    (hrs : runInputs inputs h = (rs, h₁))
    (hf : f rs sizes (inputs.length : Int) d h₁ = (r, h₂)) :
    run_node (.mk inputs sizes f d) h = (r, releaseInputs inputs rs h₂) ∧
    (releaseInputs inputs rs h₂).freedLog =
      h₂.freedLog ++ releasedPtrs inputs rs ∧
    ∀ q, q ∉ releasedPtrs inputs rs →
      (releaseInputs inputs rs h₂).lookup q = h₂.lookup q := by
  refine ⟨?_, releaseInputs_freedLog inputs rs h₂,
    fun q hq => releaseInputs_lookup q inputs rs h₂ hq⟩
  rw [run_node_mk, hrs, hf]

/-- C1 witness: a node with two leaf inputs, the first with null `data`
(whose mock operation returns the fresh pointer 4), the second owning
buffer 2; the evaluator frees exactly the first input's result pointer 4
and leaves every other address, including the persistent buffer 2,
untouched. -/
theorem c1_release_policy_witness :
    (0 <
      [Node.mk [] [] (fun _ _ _ _ h => (4, h)) nullPtr,
        Node.mk [] [] input_fcn 2].length) ∧
    (run_node
        (.mk [Node.mk [] [] (fun _ _ _ _ h => (4, h)) nullPtr,
          Node.mk [] [] input_fcn 2] [] input_fcn 3)
        ⟨[(2, [7]), (3, [1]), (4, [9])], []⟩ =
      (3, releaseInputs
        [Node.mk [] [] (fun _ _ _ _ h => (4, h)) nullPtr,
          Node.mk [] [] input_fcn 2] [4, 2]
        ⟨[(2, [7]), (3, [1]), (4, [9])], []⟩) ∧
    (releaseInputs
        [Node.mk [] [] (fun _ _ _ _ h => (4, h)) nullPtr,
          Node.mk [] [] input_fcn 2] [4, 2]
        ⟨[(2, [7]), (3, [1]), (4, [9])], []⟩).freedLog =
      (⟨[(2, [7]), (3, [1]), (4, [9])], []⟩ : Heap).freedLog ++
        releasedPtrs
          [Node.mk [] [] (fun _ _ _ _ h => (4, h)) nullPtr,
            Node.mk [] [] input_fcn 2] [4, 2] ∧
    ∀ q, q ∉ releasedPtrs
        [Node.mk [] [] (fun _ _ _ _ h => (4, h)) nullPtr,
          Node.mk [] [] input_fcn 2] [4, 2] →
      (releaseInputs
          [Node.mk [] [] (fun _ _ _ _ h => (4, h)) nullPtr,
            Node.mk [] [] input_fcn 2] [4, 2]
          ⟨[(2, [7]), (3, [1]), (4, [9])], []⟩).lookup q =
        (⟨[(2, [7]), (3, [1]), (4, [9])], []⟩ : Heap).lookup q) :=
  ⟨by decide,
    c1_release_policy
      [Node.mk [] [] (fun _ _ _ _ h => (4, h)) nullPtr,
        Node.mk [] [] input_fcn 2] [] input_fcn 3
      ⟨[(2, [7]), (3, [1]), (4, [9])], []⟩
      ⟨[(2, [7]), (3, [1]), (4, [9])], []⟩
      ⟨[(2, [7]), (3, [1]), (4, [9])], []⟩ 3 [4, 2] (by decide) rfl rfl⟩

/-- C2 counterexample: at the concrete leaf node whose operation is
`input` and whose `data` is null, the operation returns null and `run_node`
of `node.c` completes normally, returning the null pointer with the heap
untouched — it does not fail; the spec-modelled checked evaluator
(`run_node_checked`, following §4.1/§7 of the spec) is the one that fails
with `AllocationError` there, so the claim as stated is false of the
code. -/
theorem c2_counterexample :
    run_node (.mk [] [] input_fcn nullPtr) ⟨[], []⟩ = (nullPtr, ⟨[], []⟩) ∧
    run_node_checked (.mk [] [] input_fcn nullPtr) ⟨[], []⟩ =
      .error .allocationError :=
  ⟨rfl, rfl⟩

/-- C2 (amended): for every node whose `data` field is null and whose
operation returns null, evaluation completes and returns the null pointer
as its result — there is no `AllocationError` check in `run_node` — and
the evaluator does not synthesize a result buffer itself: the final heap
holds no allocation beyond those present when the operation returned. -/
theorem c2_null_result (inputs : List Node) (sizes : List Int) (f : Fcn)
    (h h₁ h₂ : Heap) (rs : List Ptr)
    (hrs : runInputs inputs h = (rs, h₁))
    (hf : f rs sizes (inputs.length : Int) nullPtr h₁ = (nullPtr, h₂)) :
    (run_node (.mk inputs sizes f nullPtr) h).1 = nullPtr ∧
    (run_node (.mk inputs sizes f nullPtr) h).2 = releaseInputs inputs rs h₂ ∧
    ∀ q, (((run_node (.mk inputs sizes f nullPtr) h).2).lookup q).isSome = true →
      (h₂.lookup q).isSome = true := by
  have heq : run_node (.mk inputs sizes f nullPtr) h =
      (nullPtr, releaseInputs inputs rs h₂) := by
    rw [run_node_mk, hrs, hf]
  refine ⟨by rw [heq], by rw [heq], fun q hq => ?_⟩
  rw [heq] at hq
  exact releaseInputs_isSome q inputs rs h₂ hq

/-- C2 witness: the leaf input node with null `data` evaluates to the
null pointer on the empty heap, and the final heap allocates nothing. -/
theorem c2_null_result_witness :
    (run_node (.mk [] [] input_fcn nullPtr) ⟨[], []⟩).1 = nullPtr ∧
    (run_node (.mk [] [] input_fcn nullPtr) ⟨[], []⟩).2 =
      releaseInputs [] [] ⟨[], []⟩ ∧
    ∀ q, (((run_node (.mk [] [] input_fcn nullPtr) ⟨[], []⟩).2).lookup q).isSome =
        true →
      ((⟨[], []⟩ : Heap).lookup q).isSome = true :=
  c2_null_result [] [] input_fcn ⟨[], []⟩ ⟨[], []⟩ ⟨[], []⟩ [] rfl rfl

/-- C5: for every leaf node (no inputs, so `input_count == 0`) whose
operation is `input`, evaluation returns the node's `data` pointer itself
— the very same buffer, no copy — and leaves the heap completely
unchanged. -/
theorem c5_input_identity (sizes : List Int) (d : Ptr) (h : Heap) :
    run_node (.mk [] sizes input_fcn d) h =
      ((Node.mk [] sizes input_fcn d).data, h) := rfl

/-- C3: for every `sum` node with `k` inputs whose result buffers each
have length `n` and whose `data` buffer (distinct from the input result
buffers) is pre-seeded to `n` zeros, evaluation returns the `data`
pointer itself and the resulting buffer satisfies
`evaluate(node)[j] = Σ_{i<k} inputs[i].result[j]` for every `j < n`. -/
theorem c3_sum_node (inputs : List Node) (sizes : List Int) (d : Ptr)
    (h h₁ : Heap) (rs : List Ptr) (n : Nat) (bufs : List (List ℚ))
    (hrs : runInputs inputs h = (rs, h₁))
    (hsize : sizes.headD 0 = (n : Int))
    (hbufs : ∀ i, i < inputs.length →
      h₁.lookup (rs.getD i nullPtr) = some (bufs.getD i []) ∧
        (bufs.getD i []).length = n)
    (hd : h₁.lookup d = some (List.replicate n 0))
    (hdist : d ∉ rs) :
    (run_node (.mk inputs sizes sum_fcn d) h).1 = d ∧
    ∀ j, j < n →
      (run_node (.mk inputs sizes sum_fcn d) h).2.read d j =
        ∑ i ∈ Finset.range inputs.length, (bufs.getD i []).getD j 0 := by
  have hrslen : rs.length = inputs.length := by
    have hx := runInputs_length inputs h
    rw [hrs] at hx
    exact hx
  have hmain : run_node (.mk inputs sizes sum_fcn d) h =
      (d, releaseInputs inputs rs
        (opLoop (fun a b => a + b) rs inputs.length n d h₁)) := by
    rw [run_node_mk, hrs]
    simp only [sum_fcn_eq, hsize, Int.toNat_ofNat]
  have hlen : lengthAt h₁ d = n := by
    unfold lengthAt
    rw [hd]
    simp
  have hdns : d ∉ releasedPtrs inputs rs :=
    fun hh => hdist (releasedPtrs_subset inputs rs d hh)
  have hld : ∀ i, i < inputs.length → rs.getD i nullPtr ≠ d := by
    intro i hi heq
    exact hdist (heq ▸ getD_mem_of_lt rs i (by omega))
  refine ⟨by rw [hmain], fun j hj => ?_⟩
  rw [hmain]
  have hrel := releaseInputs_lookup d inputs rs
    (opLoop (fun a b => a + b) rs inputs.length n d h₁) hdns
  rw [Heap.read_eq_of_lookup_eq _ _ _ _ hrel,
    opLoop_read_d _ _ _ _ _ _ hld j, hlen, if_pos ⟨hj, hj⟩]
  have hread0 : h₁.read d j = 0 := by
    unfold Heap.read
    rw [hd]
    exact getD_replicate_zero n j
  simp only [foldl_add_sum, hread0, zero_add]
  refine Finset.sum_congr rfl fun i hi => ?_
  have hi2 : i < inputs.length := Finset.mem_range.mp hi
  unfold Heap.read
  rw [(hbufs i hi2).1]
  rfl

/-- C3 witness: a `sum` node over two owning leaves with buffers
`[1, 2]` and `[10, 20]` and accumulator pre-seeded to `[0, 0]`. -/
theorem c3_sum_node_witness :
    (run_node
        (.mk [Node.mk [] [] input_fcn 1, Node.mk [] [] input_fcn 2] [2] sum_fcn 3)
        ⟨[(1, [1, 2]), (2, [10, 20]), (3, [0, 0])], []⟩).1 = 3 ∧
    ∀ j, j < 2 →
      (run_node
          (.mk [Node.mk [] [] input_fcn 1, Node.mk [] [] input_fcn 2] [2] sum_fcn 3)
          ⟨[(1, [1, 2]), (2, [10, 20]), (3, [0, 0])], []⟩).2.read 3 j =
        ∑ i ∈ Finset.range
            [Node.mk [] [] input_fcn 1, Node.mk [] [] input_fcn 2].length,
          ([[1, 2], [10, 20]].getD i []).getD j 0 :=
  c3_sum_node [Node.mk [] [] input_fcn 1, Node.mk [] [] input_fcn 2] [2] 3
    ⟨[(1, [1, 2]), (2, [10, 20]), (3, [0, 0])], []⟩
    ⟨[(1, [1, 2]), (2, [10, 20]), (3, [0, 0])], []⟩ [1, 2] 2 [[1, 2], [10, 20]]
    rfl rfl
    (by
      intro i hi
      have hi2 : i < 2 := by simpa using hi
      interval_cases i <;> exact ⟨rfl, rfl⟩)
    rfl (by decide)

/-- C4: the `integration` operation on `lists[0] = values` and
`lists[1] = bins`, both of length `sizes[0] = n`, with `data[0]`
pre-seeded to `0`, returns `data` and accumulates the trapezoidal sum
`Σ_{i<n-1} 0.5*(values[i]+values[i+1])*(bins[i+1]-bins[i])` into
`data[0]`; in particular for `values = [0,1,0]`, `bins = [0,1,2]` the
result equals `1`. -/
theorem c4_integration (pv pb d : Ptr) (sizes : List Int) (k : Int) (h : Heap)
    (n : Nat) (v b l0 : List ℚ)
    (hsize : sizes.headD 0 = (n : Int))
    (hvlen : v.length = n) (hblen : b.length = n)
    (hv : h.lookup pv = some v) (hb : h.lookup pb = some b)
    (hd : h.lookup d = some l0) (hl : 0 < l0.length) (hseed : l0.getD 0 0 = 0)
    (hvd : pv ≠ d) (hbd : pb ≠ d) :
    ((integration_fcn [pv, pb] sizes k d h).1 = d ∧
      (integration_fcn [pv, pb] sizes k d h).2.read d 0 =
        ∑ i ∈ Finset.range (n - 1),
          (1 / 2 : ℚ) * (v.getD i 0 + v.getD (i + 1) 0) *
            (b.getD (i + 1) 0 - b.getD i 0)) ∧
    (integration_fcn [1, 2] [3] 2 3
        ⟨[(1, [0, 1, 0]), (2, [0, 1, 2]), (3, [0])], []⟩).2.read 3 0 = 1 := by
  constructor
  · have hg := integration_spec pv pb d sizes k h n v b l0 hsize hv hb hd hl hvd hbd
    exact ⟨hg.1, by rw [hg.2, hseed, zero_add]⟩
  · have hg := integration_spec 1 2 3 [3] 2
      ⟨[(1, [0, 1, 0]), (2, [0, 1, 2]), (3, [0])], []⟩ 3 [0, 1, 0] [0, 1, 2] [0]
      rfl rfl rfl rfl (by decide) (by decide) (by decide)
    rw [hg.2]
    norm_num [Finset.sum_range_succ]

/-- C4 witness: the trapezoidal-rule instance `values = [0,1,0]`,
`bins = [0,1,2]`, seed `data = [0]`, evaluating to `1`. -/
theorem c4_integration_witness :
    ((integration_fcn [1, 2] [3] 2 3
        ⟨[(1, [0, 1, 0]), (2, [0, 1, 2]), (3, [0])], []⟩).1 = 3 ∧
      (integration_fcn [1, 2] [3] 2 3
          ⟨[(1, [0, 1, 0]), (2, [0, 1, 2]), (3, [0])], []⟩).2.read 3 0 =
        ∑ i ∈ Finset.range (3 - 1),
          (1 / 2 : ℚ) * ([0, 1, 0].getD i 0 + [0, 1, 0].getD (i + 1) 0) *
            ([0, 1, 2].getD (i + 1) 0 - [0, 1, 2].getD i 0)) ∧
    (integration_fcn [1, 2] [3] 2 3
        ⟨[(1, [0, 1, 0]), (2, [0, 1, 2]), (3, [0])], []⟩).2.read 3 0 = 1 :=
  c4_integration 1 2 3 [3] 2
    ⟨[(1, [0, 1, 0]), (2, [0, 1, 2]), (3, [0])], []⟩ 3 [0, 1, 0] [0, 1, 2] [0]
    rfl (by decide) (by decide) rfl rfl rfl (by decide) rfl (by decide) (by decide)

/-- C6: for a node whose operation is `sin` (respectively `cosh`) with a
single input evaluating to buffer `x` of length `sizes[0] = n` and a
non-null `data` buffer of that length, evaluation returns the `data`
pointer and `evaluate(node)[i] = sin(x[i])` (respectively `cosh(x[i])`)
for every `i < n`, for arbitrary input vectors — including empty,
single-element and negative values — and for arbitrary underlying
functions `sinF`/`coshF` standing for the C library `sin`/`cosh`. -/
theorem c6_sin_cosh (sinF coshF : ℚ → ℚ) (child : Node) (sizes : List Int)
    (p d : Ptr) (h h₁ : Heap) (x l0 : List ℚ) (n : Nat)
    (hrun : run_node child h = (p, h₁))
    (hsize : sizes.headD 0 = (n : Int))
    (hx : h₁.lookup p = some x) (hxlen : x.length = n)
    (hd : h₁.lookup d = some l0) (hl0 : l0.length = n)
    (hpd : p ≠ d) :
    ((run_node (.mk [child] sizes (sin_fcn sinF) d) h).1 = d ∧
      ∀ i, i < n →
        (run_node (.mk [child] sizes (sin_fcn sinF) d) h).2.read d i =
          sinF (x.getD i 0)) ∧
    ((run_node (.mk [child] sizes (cosh_fcn coshF) d) h).1 = d ∧
      ∀ i, i < n →
        (run_node (.mk [child] sizes (cosh_fcn coshF) d) h).2.read d i =
          coshF (x.getD i 0)) :=
  ⟨unary_map_run sinF (sin_fcn sinF)
      (fun l s kk dd hh => sin_fcn_eq sinF l s kk dd hh)
      child sizes p d h h₁ x l0 n hrun hsize hx hd hl0 hpd,
    unary_map_run coshF (cosh_fcn coshF)
      (fun l s kk dd hh => cosh_fcn_eq coshF l s kk dd hh)
      child sizes p d h h₁ x l0 n hrun hsize hx hd hl0 hpd⟩

/-- C6 witness: a `sin`/`cosh` node fed by an owning leaf with buffer
`[3, -5]` (length 2, including a negative value), with concrete functions
standing in for the mathematical `sin`/`cosh`. -/
theorem c6_sin_cosh_witness :
    ((run_node (.mk [Node.mk [] [] input_fcn 1] [2]
          (sin_fcn (fun q => q + 1)) 2) ⟨[(1, [3, -5]), (2, [0, 0])], []⟩).1 = 2 ∧
      ∀ i, i < 2 →
        (run_node (.mk [Node.mk [] [] input_fcn 1] [2]
            (sin_fcn (fun q => q + 1)) 2)
            ⟨[(1, [3, -5]), (2, [0, 0])], []⟩).2.read 2 i =
          (fun q => q + 1) ([3, -5].getD i 0)) ∧
    ((run_node (.mk [Node.mk [] [] input_fcn 1] [2]
          (cosh_fcn (fun q => q * 2)) 2) ⟨[(1, [3, -5]), (2, [0, 0])], []⟩).1 = 2 ∧
      ∀ i, i < 2 →
        (run_node (.mk [Node.mk [] [] input_fcn 1] [2]
            (cosh_fcn (fun q => q * 2)) 2)
            ⟨[(1, [3, -5]), (2, [0, 0])], []⟩).2.read 2 i =
          (fun q => q * 2) ([3, -5].getD i 0)) :=
  c6_sin_cosh (fun q => q + 1) (fun q => q * 2) (Node.mk [] [] input_fcn 1) [2]
    1 2 ⟨[(1, [3, -5]), (2, [0, 0])], []⟩ ⟨[(1, [3, -5]), (2, [0, 0])], []⟩
    [3, -5] [0, 0] 2 rfl rfl rfl (by decide) rfl (by decide) (by decide)

/-- C7: for every `product` operation call with `num_lists` input
buffers (all distinct from the non-null `data` buffer of length
`sizes[0] = n`), the operation iterates exactly as `sum` does with
multiplication — so the final buffer satisfies
`data'[j] = data[j] * Π_{i<num_lists} lists[i][j]` for every `j < n` —
and returns `data`. -/
theorem c7_product_op (lists : List Ptr) (sizes : List Int) (k : Int) (d : Ptr)
    (h : Heap) (n : Nat) (l0 : List ℚ)
    (hsize : sizes.headD 0 = (n : Int))
    (hld : ∀ i, i < k.toNat → lists.getD i nullPtr ≠ d)
    (hd : h.lookup d = some l0) (hlen : l0.length = n) :
    (product_fcn lists sizes k d h).1 = d ∧
    ∀ j, j < n →
      (product_fcn lists sizes k d h).2.read d j =
        h.read d j * ∏ i ∈ Finset.range k.toNat, h.read (lists.getD i nullPtr) j := by
  rw [product_fcn_eq]
  have hlenAt : lengthAt h d = n := by
    unfold lengthAt
    rw [hd]
    simpa using hlen
  refine ⟨rfl, fun j hj => ?_⟩
  show (opLoop (fun a b => a * b) lists k.toNat (sizes.headD 0).toNat d h).read d j = _
  rw [hsize, Int.toNat_ofNat, opLoop_read_d _ _ _ _ _ _ hld j, hlenAt,
    if_pos ⟨hj, hj⟩]
  simp only [foldl_mul_prod]

/-- C7 witness: a `product` call over buffers `[2, 3]` and `[4, 5]` with
accumulator seeded to `[1, 1]`. -/
theorem c7_product_op_witness :
    (product_fcn [1, 2] [2] 2 3 ⟨[(1, [2, 3]), (2, [4, 5]), (3, [1, 1])], []⟩).1 = 3 ∧
    ∀ j, j < 2 →
      (product_fcn [1, 2] [2] 2 3
          ⟨[(1, [2, 3]), (2, [4, 5]), (3, [1, 1])], []⟩).2.read 3 j =
        (⟨[(1, [2, 3]), (2, [4, 5]), (3, [1, 1])], []⟩ : Heap).read 3 j *
          ∏ i ∈ Finset.range (2 : Int).toNat,
            (⟨[(1, [2, 3]), (2, [4, 5]), (3, [1, 1])], []⟩ : Heap).read
              ([1, 2].getD i nullPtr) j :=
  c7_product_op [1, 2] [2] 2 3 ⟨[(1, [2, 3]), (2, [4, 5]), (3, [1, 1])], []⟩ 2
    [1, 1] rfl (by decide) rfl (by decide)

/-- C8: for every finite (hence cycle-free) graph, evaluation
terminates, and the recursion depth is bounded by the graph depth: the
fuel-instrumented evaluator, which charges one unit of fuel per `run_node`
stack frame and aborts when fuel runs out, completes and agrees with
`run_node` whenever the fuel is at least the depth of the graph. -/
theorem c8_termination_depth (n : Node) (h : Heap) (fuel : Nat)
    (hfuel : depth n ≤ fuel) :
    run_node_fuel fuel n h = some (run_node n h) := by
  revert h fuel
  refine node_ind
    (fun n => ∀ (h : Heap) (fuel : Nat), depth n ≤ fuel →
      run_node_fuel fuel n h = some (run_node n h)) ?_ n
  intro inputs sizes f d IH h fuel hf
  rw [depth_mk] at hf
  cases fuel with
  | zero => omega
  | succ fuel =>
      have hev : ∀ m ∈ inputs, ∀ hh : Heap,
          run_node_fuel fuel m hh = some (run_node m hh) :=
        fun m hm hh => IH m hm hh fuel
          (Nat.le_trans (depth_le_depthList m inputs hm) (by omega))
      rw [run_node_fuel_succ, runInputsAux_spec _ _ hev h]
      rfl

/-- C8 witness: a two-level graph of depth 2 evaluated with fuel 2. -/
theorem c8_termination_depth_witness :
    depth (.mk [Node.mk [] [] input_fcn 2] [] input_fcn 3) ≤ 2 ∧
    run_node_fuel 2 (.mk [Node.mk [] [] input_fcn 2] [] input_fcn 3) ⟨[], []⟩ =
      some (run_node (.mk [Node.mk [] [] input_fcn 2] [] input_fcn 3) ⟨[], []⟩) :=
  ⟨by decide,
    c8_termination_depth (.mk [Node.mk [] [] input_fcn 2] [] input_fcn 3)
      ⟨[], []⟩ 2 (by decide)⟩

/-- C9: for every graph whose nodes all use built-in operations,
evaluation changes only the contents of the graph's `data` buffers —
every address outside `dataPtrs n` holds exactly the same buffer
afterwards — and no buffer is created or destroyed (every address is
allocated after evaluation iff it was allocated before).  Nodes
themselves are immutable values in this embedding, matching the C
evaluator, which never writes through `node` pointers and constructs and
destroys no nodes. -/
theorem c9_frame (n : Node) (h : Heap) (hn : allBuiltin n) :
    (∀ q, q ∉ dataPtrs n → (run_node n h).2.lookup q = h.lookup q) ∧
    (∀ q, ((run_node n h).2.lookup q).isSome = (h.lookup q).isSome) := by
  have hs := run_node_builtin n hn h
  exact ⟨hs.2.1, hs.2.2.1⟩

/-- C9 witness: a `sum`-over-`input` graph evaluated on a heap holding
an unrelated buffer at address 7, which is untouched. -/
theorem c9_frame_witness :
    (∀ q, q ∉ dataPtrs (.mk [Node.mk [] [] input_fcn 1] [1] sum_fcn 2) →
      (run_node (.mk [Node.mk [] [] input_fcn 1] [1] sum_fcn 2)
          ⟨[(1, [5]), (2, [0]), (7, [9])], []⟩).2.lookup q =
        (⟨[(1, [5]), (2, [0]), (7, [9])], []⟩ : Heap).lookup q) ∧
    (∀ q, ((run_node (.mk [Node.mk [] [] input_fcn 1] [1] sum_fcn 2)
          ⟨[(1, [5]), (2, [0]), (7, [9])], []⟩).2.lookup q).isSome =
        ((⟨[(1, [5]), (2, [0]), (7, [9])], []⟩ : Heap).lookup q).isSome) :=
  c9_frame (.mk [Node.mk [] [] input_fcn 1] [1] sum_fcn 2)
    ⟨[(1, [5]), (2, [0]), (7, [9])], []⟩
    (by
      rw [allBuiltin_mk]
      refine ⟨Or.inr (Or.inl rfl), ?_⟩
      rw [allBuiltinList_cons, allBuiltin_mk, allBuiltinList_nil]
      exact ⟨⟨Or.inl rfl, trivial⟩, trivial⟩)

/-- C10: every built-in operation returns its `data` argument as the
result pointer; consequently, on a graph whose nodes all use built-in
operations, `run_node` returns a pointer equal to the node's own `data`
(so a node with null `data` yields a null result), every release call
recorded during evaluation frees the null pointer, and no fresh result
buffer is ever allocated (the set of allocated addresses is unchanged). -/
theorem c10_builtin_identity (n : Node) (h : Heap) (f : Fcn) (lists : List Ptr)
    (sizes : List Int) (k : Int) (d : Ptr) (h₂ : Heap)
    (hf : IsBuiltin f) (hn : allBuiltin n) :
    (f lists sizes k d h₂).1 = d ∧
    (run_node n h).1 = n.data ∧
    (n.data = nullPtr → (run_node n h).1 = nullPtr) ∧
    (∃ m, (run_node n h).2.freedLog = h.freedLog ++ List.replicate m nullPtr) ∧
    (∀ q, ((run_node n h).2.lookup q).isSome = (h.lookup q).isSome) := by
  have hs := run_node_builtin n hn h
  exact ⟨(builtin_apply f hf lists sizes k d h₂).1, hs.1,
    fun hd => by rw [hs.1, hd], hs.2.2.2, hs.2.2.1⟩

/-- C10 witness: a `sum` node with one null-`data` input (whose result
is null and whose release therefore frees the null pointer) and one
owning input; the root result pointer equals its `data` pointer 2, and
the heap's allocated addresses are unchanged. -/
theorem c10_builtin_identity_witness :
    (input_fcn [] [] 0 5 ⟨[], []⟩).1 = 5 ∧
    (run_node
        (.mk [Node.mk [] [] input_fcn nullPtr, Node.mk [] [] input_fcn 1] [1]
          sum_fcn 2) ⟨[(1, [5]), (2, [0])], []⟩).1 =
      (Node.mk [Node.mk [] [] input_fcn nullPtr, Node.mk [] [] input_fcn 1] [1]
        sum_fcn 2).data ∧
    ((Node.mk [Node.mk [] [] input_fcn nullPtr, Node.mk [] [] input_fcn 1] [1]
        sum_fcn 2).data = nullPtr →
      (run_node
          (.mk [Node.mk [] [] input_fcn nullPtr, Node.mk [] [] input_fcn 1] [1]
            sum_fcn 2) ⟨[(1, [5]), (2, [0])], []⟩).1 = nullPtr) ∧
    (∃ m, (run_node
        (.mk [Node.mk [] [] input_fcn nullPtr, Node.mk [] [] input_fcn 1] [1]
          sum_fcn 2) ⟨[(1, [5]), (2, [0])], []⟩).2.freedLog =
      (⟨[(1, [5]), (2, [0])], []⟩ : Heap).freedLog ++ List.replicate m nullPtr) ∧
    (∀ q, ((run_node
        (.mk [Node.mk [] [] input_fcn nullPtr, Node.mk [] [] input_fcn 1] [1]
          sum_fcn 2) ⟨[(1, [5]), (2, [0])], []⟩).2.lookup q).isSome =
      ((⟨[(1, [5]), (2, [0])], []⟩ : Heap).lookup q).isSome) :=
  c10_builtin_identity
    (.mk [Node.mk [] [] input_fcn nullPtr, Node.mk [] [] input_fcn 1] [1]
      sum_fcn 2) ⟨[(1, [5]), (2, [0])], []⟩ input_fcn [] [] 0 5 ⟨[], []⟩
    (Or.inl rfl)
    (by
      rw [allBuiltin_mk]
      refine ⟨Or.inr (Or.inl rfl), ?_⟩
      rw [allBuiltinList_cons, allBuiltin_mk, allBuiltinList_nil]
      refine ⟨⟨Or.inl rfl, trivial⟩, ?_⟩
      rw [allBuiltinList_cons, allBuiltin_mk, allBuiltinList_nil]
      exact ⟨⟨Or.inl rfl, trivial⟩, trivial⟩)

end SyntheticGraph
